import Mathlib

/-!
Verification of the process-pool evaluation orchestrator in `src/cli.ts`
(class `ProcessPool` and its helpers).  The TypeScript is shallowly embedded:
JSON values that cross the ledger file are modelled by structures holding
exactly the fields the program inspects, the stateful scheduling loop becomes
explicit state passing over `PoolState`, numbers that carry scores are `ℚ`,
and platform primitives (`JSON.parse`, `os.freemem`) are passed in as
parameters or numeric oracles.  Fields the program writes but never reads
back (metrics, project ids, urls) are elided.
-/

namespace NextEvals

/-- One configured candidate model (`MODELS` entries in `src/lib/models.ts`);
only the `name` field is read by the pool. -/
structure Model where
  name : String
deriving DecidableEq, Repr

/-- Collapses consecutive dashes, mirroring the global regex
`[^a-zA-Z0-9]+ -> "-"` after each non-alphanumeric char was dashed. -/
def collapseDashes : List Char → List Char
  | [] => []
  | [c] => [c]
  | c :: d :: rest =>
    if c = '-' ∧ d = '-' then collapseDashes (d :: rest)
    else c :: collapseDashes (d :: rest)

/-- Embedding of the model-folder sanitizer (`src/cli.ts` lines 1256-1259):
`name.replace(/[^a-zA-Z0-9]+/g, "-").replace(/^-+|-+$/g, "").toLowerCase()`. -/
def sanitizeModelName (name : String) : String :=
  let dashed := name.toList.map (fun c => if c.isAlpha || c.isDigit then c else '-')
  let collapsed := collapseDashes dashed
  let trimmed :=
    ((collapsed.dropWhile (fun c => c = '-')).reverse.dropWhile (fun c => c = '-')).reverse
  String.mk (trimmed.map Char.toLower)

/-- Embedding of the model-folder choice (`src/cli.ts` lines 1253-1259):
more than one model yields the comparison folder `all-models`. -/
def modelFolderName (models : List Model) : String :=
  sanitizeModelName
    (if models.length > 1 then "all-models"
     else match models with
          | [] => "default"
          | m :: _ => m.name)

/-- Completion key for a (task, variant) pair, exactly the template string
`evalPath + "_" + modelName` used throughout `ProcessPool`. -/
def completionKey (evalPath modelName : String) : String :=
  evalPath ++ "_" ++ modelName

/-- JavaScript string truthiness for an optional string field:
absent and empty strings are falsy. -/
def truthy : Option String → Bool
  | none => false
  | some s => s ≠ ""

/-- One named score cell as written into `evaluations.json`
(the constant `name` field is elided). -/
structure ScoreEntry where
  score : ℚ
  improvements : Nat
  regressions : Nat
deriving DecidableEq, Repr

/-- The `scores` object of a Braintrust-format result. -/
structure Scores where
  eval_score : ScoreEntry
  build_score : ScoreEntry
  lint_score : ScoreEntry
  test_score : ScoreEntry
deriving DecidableEq, Repr

/-- The result object stored inside a fulfilled ledger entry, holding exactly
the fields `ProcessPool` inspects: `experimentName` and `scores`
(Braintrust format), `modelResults` (legacy multi-model format, of which only
each element's `model` name is read, hence `List String`), and the presence
of `evaluationResults` (legacy single-model format). -/
structure ResultValue where
  experimentName : Option String
  scores : Option Scores
  modelResults : Option (List String)
  evaluationResults : Bool
deriving DecidableEq, Repr

/-- One row of the persisted `evaluations.json` array: either a fulfilled
record `(status, value.evalPath, value.status, value.result)` or a rejected
record `(reason.evalPath, reason.error)`. -/
inductive Entry where
  | fulfilled (evalPath : String) (valueStatus : String) (result : ResultValue)
  | rejected (evalPath : String) (error : String)
deriving DecidableEq, Repr

/-- The completion keys one stored entry contributes in
`ProcessPool.loadCompletedEvals` (`src/cli.ts` lines 1272-1301): only
fulfilled entries whose inner status is `success` count, through the three
supported result shapes, in the if-else order of the source. -/
def entryCompletionKeys (models : List Model) : Entry → List String
  | .rejected _ _ => []
  | .fulfilled evalPath valueStatus r =>
    if valueStatus = "success" then
      if truthy r.experimentName ∧ r.scores.isSome then
        match r.experimentName with
        | some m => [completionKey evalPath m]
        | none => []
      else
        match r.modelResults with
        | some mrs => mrs.map (fun m => completionKey evalPath m)
        | none =>
          if r.evaluationResults then
            match models with
            | m :: _ => [completionKey evalPath m.name]
            | [] => []
          else []
    else []

/-- Embedding of `ProcessPool.loadCompletedEvals`: the set of completion keys
collected from the persisted store (the JS `Set` is modelled as a list whose
membership is what matters). -/
def loadCompletedEvals (models : List Model) (store : List Entry) : List String :=
  (store.map (entryCompletionKeys models)).foldr (· ++ ·) []

/-- Embedding of `ProcessPool.isEvalCompleted` (`src/cli.ts` lines 1317-1325):
with a model name it is exact key membership, without one it is the legacy
any-model test on the `evalPath + "_"` key text. -/
def isEvalCompleted (completed : List String) (evalPath : String) : Option String → Bool
  | some modelName => completed.contains (completionKey evalPath modelName)
  | none => completed.any (fun k => k.startsWith (evalPath ++ "_"))

/-- Embedding of the resume filter in `ProcessPool.runEvals`
(`src/cli.ts` lines 1670-1694): in multi-model mode an eval is skipped only
when every configured model has a completion key; in single-model mode the
legacy any-model test is used. -/
def evalsToRun (models : List Model) (store : List Entry) (evalPaths : List String) :
    List String :=
  let completed := loadCompletedEvals models store
  if modelFolderName models = "all-models" then
    evalPaths.filter (fun p => ¬ models.all (fun m => isEvalCompleted completed p (some m.name)))
  else
    evalPaths.filter (fun p => ¬ isEvalCompleted completed p none)

/-- The `evaluationResults` object inside a worker result; the pool reads the
three success flags to compute scores (durations feed only the elided
metrics). -/
structure EvaluationResults where
  buildSuccess : Bool
  lintSuccess : Bool
  testSuccess : Bool
deriving DecidableEq, Repr

/-- One element of a worker result's `modelResults` array;
`result` models the chained access `modelResult.result?.evaluationResults`. -/
structure ModelRunResult where
  model : String
  result : Option EvaluationResults
deriving DecidableEq, Repr

/-- The payload a worker hands back: the parsed `EVAL_RESULT:` JSON, or the
fallback `success: true` object, which has no `modelResults`. -/
structure WorkerResult where
  modelResults : Option (List ModelRunResult)
deriving DecidableEq, Repr

/-- Score arithmetic of `transformToBraintrustFormat`
(`src/cli.ts` lines 1448-1450): 1.0 for success, 0.0 for failure. -/
def scoreOf (b : Bool) : ℚ := if b then 1 else 0

/-- The all-failed `scores` object produced by
`ProcessPool.createDefaultBraintrustResult` (`src/cli.ts` lines 1345-1370). -/
def defaultFailedScores : Scores :=
  { eval_score := { score := 0, improvements := 0, regressions := 1 }
  , build_score := { score := 0, improvements := 0, regressions := 1 }
  , lint_score := { score := 0, improvements := 0, regressions := 1 }
  , test_score := { score := 0, improvements := 0, regressions := 1 } }

/-- Embedding of `ProcessPool.createDefaultBraintrustResult`
(`src/cli.ts` lines 1332-1430): a Braintrust-shaped result whose scores are
all zero (ids, urls and metrics elided). -/
def createDefaultBraintrustResult (modelName : String) : ResultValue :=
  { experimentName := some modelName
  , scores := some defaultFailedScores
  , modelResults := none
  , evaluationResults := false }

/-- Embedding of the per-model branch of
`ProcessPool.transformToBraintrustFormat` (`src/cli.ts` lines 1440-1557):
a model run without `evaluationResults` becomes the default failed result
(`modelResult.model || "Unknown Model"` under JS truthiness), otherwise the
four scores are computed from the success flags with
`evalScore = buildScore * lintScore * testScore`. -/
def transformModelResult (mr : ModelRunResult) : ResultValue :=
  match mr.result with
  | none =>
    createDefaultBraintrustResult (if mr.model = "" then "Unknown Model" else mr.model)
  | some er =>
    let buildScore := scoreOf er.buildSuccess
    let lintScore := scoreOf er.lintSuccess
    let testScore := scoreOf er.testSuccess
    let evalScore := buildScore * lintScore * testScore
    { experimentName := some mr.model
    , scores := some
        { eval_score :=
            { score := evalScore, improvements := 0
            , regressions := if evalScore = 1 then 0 else 1 }
        , build_score :=
            { score := buildScore, improvements := 0
            , regressions := if buildScore = 1 then 0 else 1 }
        , lint_score :=
            { score := lintScore, improvements := 0
            , regressions := if lintScore = 1 then 0 else 1 }
        , test_score :=
            { score := testScore, improvements := 0
            , regressions := if testScore = 1 then 0 else 1 } }
    , modelResults := none
    , evaluationResults := false }

/-- Embedding of `ProcessPool.transformToBraintrustFormat`
(`src/cli.ts` lines 1432-1569) as the list of result values it yields: a
missing or empty `modelResults` array collapses to the single default failed
result.  The source returns a bare object when the list has one element and
an array otherwise; downstream (`appendResultToFile`) both become one stored
entry per element, so the list view is behaviour-preserving. -/
def transformToBraintrustFormat (w : WorkerResult) : List ResultValue :=
  match w.modelResults with
  | none => [createDefaultBraintrustResult "Unknown Model"]
  | some mrs =>
    let ts := mrs.map transformModelResult
    if ts.isEmpty then [createDefaultBraintrustResult "Unknown Model"] else ts

/-- The two call shapes of `ProcessPool.appendResultToFile` at its three call
sites (`src/cli.ts` lines 1900, 1913, 1935): a success carries the worker
result, an error carries only the diagnostic message. -/
inductive MergeCall where
  | success (w : WorkerResult)
  | error (msg : String)
deriving DecidableEq, Repr

/-- The new rows a merge writes (`src/cli.ts` lines 1588-1607): each
transformed model result becomes a fulfilled row, an error becomes one
rejected row. -/
def mergeNewResults (evalPath : String) : MergeCall → List Entry
  | .success w =>
    (transformToBraintrustFormat w).map (fun r => Entry.fulfilled evalPath "success" r)
  | .error msg => [Entry.rejected evalPath msg]

/-- The names the for-loop of `src/cli.ts` lines 1609-1615 collects from a
row list: the truthy `experimentName` of each fulfilled row (the JS `Set`
dedups, but only membership is ever consulted, so a list is adequate). -/
def namesOfEntries : List Entry → List String
  | [] => []
  | .fulfilled _ _ r :: es =>
    (match r.experimentName with
     | some m => if m = "" then namesOfEntries es else m :: namesOfEntries es
     | none => namesOfEntries es)
  | .rejected _ _ :: es => namesOfEntries es

/-- The model names extracted from the new rows for replacement
(`src/cli.ts` lines 1609-1615): only fulfilled rows with a truthy
`experimentName` contribute. -/
def mergeNewModelNames (evalPath : String) (c : MergeCall) : List String :=
  namesOfEntries (mergeNewResults evalPath c)

/-- The retention predicate of the merge filter (`src/cli.ts` lines
1617-1626): a fulfilled row for the merged eval path survives only with a
truthy `experimentName` outside the new model names; every other row
survives. -/
def keepEntry (evalPath : String) (newModelNames : List String) : Entry → Bool
  | .fulfilled p _ r =>
    if p = evalPath then
      match r.experimentName with
      | some m => m ≠ "" ∧ ¬ newModelNames.contains m
      | none => false
    else true
  | .rejected _ _ => true

/-- Embedding of the store update performed by
`ProcessPool.appendResultToFile` (`src/cli.ts` lines 1571-1662):
read-modify-write replacing same-key rows, then appending the new rows.
The enclosing `fileWriteQueue` promise chain serializes these updates, so
one sequential function application per merge is the faithful view. -/
def appendResultToFile (evalPath : String) (c : MergeCall) (store : List Entry) :
    List Entry :=
  store.filter (keepEntry evalPath (mergeNewModelNames evalPath c)) ++
    mergeNewResults evalPath c

/-- The sentinel token that tags a worker's result line on stdout. -/
def sentinelTag : String := "EVAL_RESULT:"

/-- Embedding of the stdout scan in the exit handler of
`ProcessPool.startProcess` (`src/cli.ts` lines 1868-1897): stdout is viewed
as its list of lines, `decode` stands for `JSON.parse` on the text after the
sentinel, and both a missing sentinel line and a decode failure leave the
fallback result (no `modelResults`) in place. -/
def parseWorkerOutput (decode : String → Option WorkerResult) (lines : List String) :
    WorkerResult :=
  match lines.find? (fun l => l.startsWith sentinelTag) with
  | none => { modelResults := none }
  | some l =>
    match decode (l.drop sentinelTag.length) with
    | none => { modelResults := none }
    | some w => w

/-- The diagnostic text synthesized for an abnormal exit
(`src/cli.ts` lines 1908-1910). -/
def exitErrorMessage (code : Option Int) (signal : Option String) : String :=
  match signal with
  | some sig => "Process killed by signal " ++ sig
  | none =>
    "Process exited with code " ++
      (match code with
       | some n => toString n
       | none => "null")

/-- Embedding of the classification in the exit handler of
`ProcessPool.startProcess` (`src/cli.ts` lines 1867-1920): exit code 0 parses
stdout into a success merge, anything else becomes an error merge whose text
is the exit reason. -/
def classifyExit (decode : String → Option WorkerResult) (code : Option Int)
    (signal : Option String) (lines : List String) : MergeCall :=
  if code = some 0 then .success (parseWorkerOutput decode lines)
  else .error (exitErrorMessage code signal)

/-- The memory floor (in MB) required before admitting a job
(`src/cli.ts` line 1751: `checkAvailableMemory(100)`). -/
def minAdmitMB : ℚ := 100

/-- Embedding of the `hasEnough` field of `checkAvailableMemory`
(`src/cli.ts` lines 23-40): free megabytes against the required floor. -/
def hasEnoughMemory (availableMB minRequiredMB : ℚ) : Bool :=
  minRequiredMB ≤ availableMB

/-- The scheduler state of one `ProcessPool` run: the FIFO backlog, the eval
paths of the active child processes, the worker budget, and whether the
2-second memory polling interval is armed.  `admitted` is a ghost history of
admissions in order, recording what `startProcess` was called on. -/
structure PoolState where
  queue : List String
  active : List String
  maxProcesses : Nat
  memCheckArmed : Bool
  admitted : List String
deriving DecidableEq, Repr

/-- Embedding of the admission loop `ProcessPool.processQueue`
(`src/cli.ts` lines 1745-1784), recursing structurally on the backlog with
the other `PoolState` fields passed through: while the backlog is non-empty
and a worker slot is free, the memory gate is consulted (reading `avail i`
megabytes at the i-th check); on failure the loop arms the polling interval
and stops, otherwise it pops the backlog head and spawns it. -/
def processQueueGo (avail : Nat → ℚ) (i : Nat) : List String →
    (active : List String) → (admitted : List String) → (maxP : Nat) →
    (armed : Bool) → PoolState
  | [], active, admitted, maxP, armed =>
    { queue := [], active := active, maxProcesses := maxP
    , memCheckArmed := armed, admitted := admitted }
  | job :: rest, active, admitted, maxP, armed =>
    if active.length < maxP then
      if hasEnoughMemory (avail i) minAdmitMB then
        processQueueGo avail (i + 1) rest (active ++ [job]) (admitted ++ [job]) maxP armed
      else
        { queue := job :: rest, active := active, maxProcesses := maxP
        , memCheckArmed := true, admitted := admitted }
    else
      { queue := job :: rest, active := active, maxProcesses := maxP
      , memCheckArmed := armed, admitted := admitted }

/-- One invocation of `ProcessPool.processQueue`, starting at the first
memory reading. -/
def processQueue (avail : Nat → ℚ) (s : PoolState) : PoolState :=
  processQueueGo avail 0 s.queue s.active s.admitted s.maxProcesses s.memCheckArmed

/-- Embedding of one tick of the 2-second memory polling interval
(`src/cli.ts` lines 1760-1770): a passing recheck clears the interval and
re-invokes the admission loop; a failing one leaves everything untouched. -/
def memoryPollTick (avail : Nat → ℚ) (recheckOk : Bool) (s : PoolState) : PoolState :=
  if recheckOk then processQueue avail { s with memCheckArmed := false } else s

/-- Embedding of the exit handler wired in `ProcessPool.startProcess`
(`src/cli.ts` lines 1855-1924): the child leaves the active set, its exit is
classified and merged into the store, and the admission loop runs again.
Returns the updated store together with the updated scheduler state. -/
def handleExit (avail : Nat → ℚ) (decode : String → Option WorkerResult)
    (evalPath : String) (code : Option Int) (signal : Option String)
    (lines : List String) (store : List Entry) (s : PoolState) :
    List Entry × PoolState :=
  let c := classifyExit decode code signal lines
  let store1 := appendResultToFile evalPath c store
  (store1, processQueue avail { s with active := s.active.erase evalPath })

/-- The grace period of `ProcessPool.cleanup` in milliseconds
(`src/cli.ts` line 1964). -/
def gracePeriodMs : Nat := 5000

/-- One child process still active when `ProcessPool.cleanup` runs, with the
time (ms) it would take to exit after receiving SIGTERM. -/
structure ActiveWorker where
  name : String
  exitAfterTermMs : Nat
deriving DecidableEq, Repr

/-- When a worker's cleanup promise settles (`src/cli.ts` lines 1955-1965):
at its own exit, or at the grace period when the SIGKILL timeout fires. -/
def workerSettleTime (w : ActiveWorker) : Nat :=
  min w.exitAfterTermMs gracePeriodMs

/-- Whether the SIGKILL fired while the worker was still alive, i.e. the
worker had not exited within the grace period. -/
def workerForceKilled (w : ActiveWorker) : Bool :=
  gracePeriodMs < w.exitAfterTermMs

/-- The observable outcome of `ProcessPool.cleanup`
(`src/cli.ts` lines 1948-1969). -/
structure PoolCleanupResult where
  sigtermed : List String
  sigkilled : List String
  returnAtMs : Nat
  activeAfter : List String
deriving DecidableEq, Repr

/-- Embedding of `ProcessPool.cleanup`: every active worker is sent SIGTERM,
workers still alive at the grace period are force-killed, `Promise.all`
resolves at the last settle time, and the active map is cleared. -/
def poolCleanup (ws : List ActiveWorker) : PoolCleanupResult :=
  { sigtermed := ws.map (fun w => w.name)
  , sigkilled := (ws.filter workerForceKilled).map (fun w => w.name)
  , returnAtMs := (ws.map workerSettleTime).foldr max 0
  , activeAfter := [] }

/-- The observable effect of the process-level SIGINT/SIGTERM handlers. -/
structure CancellationEffect where
  progressTrackerStopped : Bool
  workerSignals : List (String × String)
  poolCleanupInvoked : Bool
deriving DecidableEq, Repr

/-- Embedding of the SIGINT/SIGTERM handlers (`src/cli.ts` lines 105-115):
they invoke the module-level `cleanup` (lines 43-102), which stops the
progress tracker and — `skipCleanup` being hard-coded `true` — returns at
once; it holds no reference to the pool's child processes, so no signal is
sent to any worker and `ProcessPool.cleanup` is never reached before
`process.exit`. -/
def sigintHandlerEffect (_activeWorkers : List String) : CancellationEffect :=
  { progressTrackerStopped := true
  , workerSignals := []
  , poolCleanupInvoked := false }

/-- Embedding of `ProcessPool.getModelsToRun` (`src/cli.ts` lines 1327-1330):
the configured models without a completion key for the eval. -/
def getModelsToRun (models : List Model) (completed : List String) (evalPath : String) :
    List Model :=
  models.filter (fun m => ¬ isEvalCompleted completed evalPath (some m.name))

/-- Modelled from the spec: the child-side per-variant skip of the worker
entry point (`lib/eval-runner`'s `runEval`, invoked by the spawned
`cli.ts --eval <path> --all-models` child; that module is not under `src/`).
Spec §4.1: resume granularity "must be per-variant, not per-task, so a
partially-finished group resumes only the missing variants, never the whole
group" — the child therefore runs exactly the models whose
(evalPath, model) key has no recorded result, matching the in-source
`getModelsToRun` helper. -/
def childModelsRun (models : List Model) (completed : List String) (evalPath : String) :
    List Model :=
  getModelsToRun models completed evalPath

/-- The (evalPath, modelName) pairs a resumed pool run actually evaluates:
the parent admits the evals not fully completed (`evalsToRun`) and each
spawned child runs its missing models. -/
def spawnedVariantPairs (models : List Model) (store : List Entry)
    (evalPaths : List String) : List (String × String) :=
  let completed := loadCompletedEvals models store
  ((evalsToRun models store evalPaths).map
    (fun p => (childModelsRun models completed p).map (fun m => (p, m.name)))).foldr
      (· ++ ·) []

/-- Membership test for a stored row carrying the ledger key
(evalPath, modelName): a fulfilled row for that eval path whose result names
that model. -/
def entryHasKey (evalPath modelName : String) : Entry → Bool
  | .fulfilled p _ r => p = evalPath ∧ r.experimentName = some modelName
  | .rejected _ _ => false

/-- The effective replace key of a stored row, when it has one: a fulfilled
row with a truthy `experimentName` is keyed by (evalPath, experimentName);
legacy rows without one, and rejected rows, carry no replace key. -/
def entryKeyOf : Entry → Option (String × String)
  | .fulfilled p _ r =>
    match r.experimentName with
    | some m => if m = "" then none else some (p, m)
    | none => none
  | .rejected _ _ => none

/-- One serialized merge of a single-model success outcome, used to state the
no-lost-writes property: the triple is (evalPath, modelName, checks). -/
def singleModelMerge (c : String × String × EvaluationResults) (store : List Entry) :
    List Entry :=
  appendResultToFile c.1 (.success { modelResults := some [{ model := c.2.1, result := some c.2.2 }] }) store

/-! Helper lemmas about strings and lists, shared by the claim theorems. -/

theorem substrEqLoopTrue : ∀ (m l₁ r₁ l₂ r₂ : List Char),
    String.substrEq.loop ⟨l₁ ++ m ++ r₁⟩ ⟨l₂ ++ m ++ r₂⟩ ⟨String.utf8Len l₁⟩
      ⟨String.utf8Len l₂⟩ ⟨String.utf8Len l₁ + String.utf8Len m⟩ = true
  | [], l₁, r₁, l₂, r₂ => by
    rw [String.substrEq.loop]
    simp
  | c :: m, l₁, r₁, l₂, r₂ => by
    rw [String.substrEq.loop]
    have hpos : String.utf8Len l₁ < String.utf8Len l₁ + String.utf8Len (c :: m) := by
      have := Char.utf8Size_pos c
      simp [String.utf8Len_cons]
      omega
    have hget₁ : String.get ⟨l₁ ++ (c :: m) ++ r₁⟩ ⟨String.utf8Len l₁⟩ = c := by
      have := String.get_of_valid l₁ (c :: (m ++ r₁))
      simpa using this
    have hget₂ : String.get ⟨l₂ ++ (c :: m) ++ r₂⟩ ⟨String.utf8Len l₂⟩ = c := by
      have := String.get_of_valid l₂ (c :: (m ++ r₂))
      simpa using this
    have hrec := substrEqLoopTrue m (l₁ ++ [c]) r₁ (l₂ ++ [c]) r₂
    simp only [hpos, dif_pos, hget₁, hget₂, beq_self_eq_true, Bool.true_and,
      String.Pos.addChar_eq]
    have e₁ : (⟨l₁ ++ (c :: m) ++ r₁⟩ : String) = ⟨(l₁ ++ [c]) ++ m ++ r₁⟩ := by simp
    have e₂ : (⟨l₂ ++ (c :: m) ++ r₂⟩ : String) = ⟨(l₂ ++ [c]) ++ m ++ r₂⟩ := by simp
    have e₃ : String.utf8Len l₁ + c.utf8Size = String.utf8Len (l₁ ++ [c]) := by simp
    have e₄ : String.utf8Len l₂ + c.utf8Size = String.utf8Len (l₂ ++ [c]) := by simp
    have e₅ : String.utf8Len l₁ + String.utf8Len (c :: m)
        = String.utf8Len (l₁ ++ [c]) + String.utf8Len m := by
      simp [String.utf8Len_cons]
      omega
    rw [e₁, e₂, e₃, e₄, e₅]
    exact hrec

theorem startsWithAppend (a b : String) : (a ++ b).startsWith a = true := by
  obtain ⟨ad⟩ := a
  obtain ⟨bd⟩ := b
  have hv : Substring.ValidFor [] (ad ++ bd) [] ((⟨ad⟩ ++ ⟨bd⟩ : String).toSubstring) :=
    String.validFor_toSubstring (⟨ad ++ bd⟩ : String)
  have ht := hv.take ad.length
  rw [List.take_left, List.drop_left] at ht
  unfold String.startsWith
  have hbsize := ht.bsize
  have hstr := ht.str
  have hstart := ht.startPos
  rw [show (String.mk ad).length = ad.length from rfl]
  show (((⟨ad⟩ ++ ⟨bd⟩ : String).toSubstring.take ad.length).beq
    (String.mk ad).toSubstring) = true
  unfold Substring.beq
  rw [hbsize, hstr, hstart]
  have hb2 : (String.mk ad).toSubstring.bsize = String.utf8Len ad :=
    (String.validFor_toSubstring ⟨ad⟩).bsize
  rw [hb2]
  simp only [beq_self_eq_true, Bool.true_and]
  have hstr2 : (String.mk ad).toSubstring.str = ⟨ad⟩ := rfl
  have hstart2 : (String.mk ad).toSubstring.startPos = 0 := rfl
  rw [hstr2, hstart2]
  unfold String.substrEq
  have hloop := substrEqLoopTrue ad [] bd [] []
  simp only [List.nil_append, List.append_nil, String.utf8Len_nil, String.Pos.mk_zero,
    Nat.zero_add] at hloop ⊢
  simp [String.endPos_eq, hloop]

theorem completionKey_startsWith (p m : String) :
    (completionKey p m).startsWith (p ++ "_") = true :=
  startsWithAppend (p ++ "_") m

theorem mem_foldr_append {α β : Type} (f : α → List β) (l : List α) (x : β) :
    x ∈ (l.map f).foldr (· ++ ·) [] ↔ ∃ a ∈ l, x ∈ f a := by
  induction l with
  | nil => simp
  | cons a l ih => simp [ih]

theorem mem_loadCompletedEvals (models : List Model) (store : List Entry) (k : String) :
    k ∈ loadCompletedEvals models store ↔
      ∃ e ∈ store, k ∈ entryCompletionKeys models e :=
  mem_foldr_append (entryCompletionKeys models) store k

/-! Claim theorems. -/

/-- C10: in the stored ledger format produced by `transformToBraintrustFormat`
for a successful worker result, each of `build_score`, `lint_score`,
`test_score` is 1.0 when the corresponding sub-check succeeded and 0.0
otherwise, and `eval_score` is their product — so the aggregate is 1.0
exactly when build, lint and test all succeeded, and 0.0 otherwise. -/
theorem C10_eval_score_product (name : String) (er : EvaluationResults) :
    ∃ sc : Scores,
      (transformModelResult { model := name, result := some er }).scores = some sc ∧
      sc.build_score.score = (if er.buildSuccess then (1 : ℚ) else 0) ∧
      sc.lint_score.score = (if er.lintSuccess then (1 : ℚ) else 0) ∧
      sc.test_score.score = (if er.testSuccess then (1 : ℚ) else 0) ∧
      sc.eval_score.score = sc.build_score.score * sc.lint_score.score * sc.test_score.score ∧
      (sc.eval_score.score = 1 ↔
        (er.buildSuccess = true ∧ er.lintSuccess = true ∧ er.testSuccess = true)) ∧
      (sc.eval_score.score = 0 ↔
        ¬ (er.buildSuccess = true ∧ er.lintSuccess = true ∧ er.testSuccess = true)) := by
  obtain ⟨b, l, t⟩ := er
  cases b <;> cases l <;> cases t <;>
    exact ⟨_, rfl, by norm_num [transformModelResult, scoreOf]⟩

/-- C1 counterexample: a job recorded through the error path (child exited
with code 1) leaves a rejected row in the ledger file, yet
`loadCompletedEvals` classifies nothing as complete and the next `runEvals`
puts the eval back into the run set — the pair is re-spawned, contradicting
the claim that any recorded result counts as completion. -/
theorem C1_counterexample :
    loadCompletedEvals [{ name := "M" }]
        [Entry.rejected "001" "Process exited with code 1"] = [] ∧
      evalsToRun [{ name := "M" }]
        [Entry.rejected "001" "Process exited with code 1"] ["001"] = ["001"] := by
  decide

/-- C1 (amended): a pair recorded through the success path — exit code 0,
with a Braintrust-format result naming the model — is classified complete by
`loadCompletedEvals` whatever its scores say (pass or fail), and is not
re-spawned by `runEvals` in either mode; rejected error rows, by contrast,
contribute no completion key, so error-recorded pairs are re-run. -/
theorem C1_success_results_complete (models : List Model) (store : List Entry)
    (evalPaths : List String) (p m : String) (sc : Scores)
    (mrs : Option (List String)) (ev : Bool)
    (hm : m ≠ "")
    (hmem : Entry.fulfilled p "success"
      { experimentName := some m, scores := some sc, modelResults := mrs
      , evaluationResults := ev } ∈ store) :
    completionKey p m ∈ loadCompletedEvals models store ∧
      isEvalCompleted (loadCompletedEvals models store) p (some m) = true ∧
      (∀ q err, entryCompletionKeys models (Entry.rejected q err) = []) ∧
      (modelFolderName models = "all-models" →
        (∀ mo ∈ models, completionKey p mo.name ∈ loadCompletedEvals models store) →
        p ∉ evalsToRun models store evalPaths) ∧
      (modelFolderName models ≠ "all-models" → p ∉ evalsToRun models store evalPaths) := by
  have hkey : completionKey p m ∈ loadCompletedEvals models store := by
    rw [mem_loadCompletedEvals]
    refine ⟨_, hmem, ?_⟩
    simp [entryCompletionKeys, truthy, hm]
  have hcontains : (loadCompletedEvals models store).contains (completionKey p m) = true := by
    simpa [List.contains] using List.elem_iff.2 hkey
  refine ⟨hkey, ?_, fun q err => rfl, ?_, ?_⟩
  · simpa [isEvalCompleted] using hcontains
  · intro hfolder hall
    simp only [evalsToRun, hfolder, eq_self_iff_true, if_true, List.mem_filter]
    rintro ⟨-, hpred⟩
    simp only [decide_eq_true_eq] at hpred
    apply hpred
    rw [List.all_eq_true]
    intro mo hmo
    have := hall mo hmo
    simp [isEvalCompleted, List.contains]
    exact this
  · intro hfolder
    rw [evalsToRun]
    rw [if_neg hfolder]
    simp only [List.mem_filter]
    rintro ⟨-, hpred⟩
    simp only [decide_eq_true_eq] at hpred
    apply hpred
    simp only [isEvalCompleted, List.any_eq_true]
    exact ⟨completionKey p m, hkey, completionKey_startsWith p m⟩

/-- C1 witness: instantiates the amended theorem on a one-model store holding
a recorded failure (all scores 0): the pair is complete and not re-run. -/
theorem C1_success_results_complete_witness :
    completionKey "001" "M" ∈
        loadCompletedEvals [{ name := "M" }]
          [Entry.fulfilled "001" "success"
            { experimentName := some "M", scores := some defaultFailedScores
            , modelResults := none, evaluationResults := false }] ∧
      "001" ∉ evalsToRun [{ name := "M" }]
          [Entry.fulfilled "001" "success"
            { experimentName := some "M", scores := some defaultFailedScores
            , modelResults := none, evaluationResults := false }] ["001"] := by
  have h := C1_success_results_complete [{ name := "M" }]
    [Entry.fulfilled "001" "success"
      { experimentName := some "M", scores := some defaultFailedScores
      , modelResults := none, evaluationResults := false }] ["001"] "001" "M"
    defaultFailedScores none false (by decide) (by simp)
  exact ⟨h.1, h.2.2.2.2 (by decide)⟩

theorem mergeNewResults_success (p : String) (w : WorkerResult) :
    mergeNewResults p (.success w) =
      (transformToBraintrustFormat w).map (fun r => Entry.fulfilled p "success" r) := rfl

theorem mem_mergeNewModelNames_success (p : String) (w : WorkerResult) (m : String) :
    m ∈ mergeNewModelNames p (.success w) ↔
      ∃ rv ∈ transformToBraintrustFormat w, rv.experimentName = some m ∧ m ≠ "" := by
  rw [mergeNewModelNames, mergeNewResults_success]
  generalize transformToBraintrustFormat w = l
  induction l with
  | nil => simp [namesOfEntries]
  | cons rv l ih =>
    rw [List.map_cons]
    cases hq : rv.experimentName with
    | none =>
      rw [show namesOfEntries
          (Entry.fulfilled p "success" rv ::
            l.map (fun r => Entry.fulfilled p "success" r)) =
          namesOfEntries (l.map (fun r => Entry.fulfilled p "success" r)) by
        simp [namesOfEntries, hq]]
      rw [ih]
      constructor
      · rintro ⟨rv', h1, h2⟩
        exact ⟨rv', List.mem_cons_of_mem _ h1, h2⟩
      · rintro ⟨rv', h1, h2, h3⟩
        rcases List.mem_cons.1 h1 with h1 | h1
        · subst h1
          rw [hq] at h2
          cases h2
        · exact ⟨rv', h1, h2, h3⟩
    | some s =>
      by_cases hs : s = ""
      · subst hs
        rw [show namesOfEntries
            (Entry.fulfilled p "success" rv ::
              l.map (fun r => Entry.fulfilled p "success" r)) =
            namesOfEntries (l.map (fun r => Entry.fulfilled p "success" r)) by
          simp [namesOfEntries, hq]]
        rw [ih]
        constructor
        · rintro ⟨rv', h1, h2⟩
          exact ⟨rv', List.mem_cons_of_mem _ h1, h2⟩
        · rintro ⟨rv', h1, h2, h3⟩
          rcases List.mem_cons.1 h1 with h1 | h1
          · subst h1
            rw [hq] at h2
            cases h2
            exact absurd rfl h3
          · exact ⟨rv', h1, h2, h3⟩
      · rw [show namesOfEntries
            (Entry.fulfilled p "success" rv ::
              l.map (fun r => Entry.fulfilled p "success" r)) =
            s :: namesOfEntries (l.map (fun r => Entry.fulfilled p "success" r)) by
          simp [namesOfEntries, hq, hs]]
        rw [List.mem_cons, ih]
        constructor
        · rintro (h | ⟨rv', h1, h2⟩)
          · subst h
            exact ⟨rv, List.mem_cons_self _ _, hq, hs⟩
          · exact ⟨rv', List.mem_cons_of_mem _ h1, h2⟩
        · rintro ⟨rv', h1, h2, h3⟩
          rcases List.mem_cons.1 h1 with h1 | h1
          · subst h1
            rw [hq] at h2
            cases h2
            exact Or.inl rfl
          · exact Or.inr ⟨rv', h1, h2, h3⟩

/-- C2 counterexample: merging twice through the error path for the same eval
path duplicates the rejected row instead of replacing it — the first call's
record is still present after the second call, refuting idempotent replace
for the error-record shape. -/
theorem C2_counterexample :
    appendResultToFile "e" (.error "err2")
        (appendResultToFile "e" (.error "err1") []) =
      [Entry.rejected "e" "err1", Entry.rejected "e" "err2"] := by
  decide

/-- C2 (amended): success-path merges are an idempotent replace per
(evalPath, experimentName) key — after a merge whose transformed result
carries exactly one row named `m`, the store holds exactly that one row for
the key, whatever rows (including ones from an earlier merge of the same
key) were there before; error-path merges instead append a rejected row
without removing any prior rejected row for the same eval path. -/
theorem C2_success_merge_idempotent (store : List Entry) (p m : String)
    (w : WorkerResult) (r : ResultValue)
    (hr : (transformToBraintrustFormat w).filter
      (fun rv => rv.experimentName = some m) = [r])
    (hm : m ≠ "") :
    (appendResultToFile p (.success w) store).filter (entryHasKey p m) =
      [Entry.fulfilled p "success" r] ∧
      (∀ msg, appendResultToFile p (.error msg) store =
        store.filter (keepEntry p []) ++ [Entry.rejected p msg]) ∧
      (∀ msg q err, Entry.rejected q err ∈ store →
        Entry.rejected q err ∈ appendResultToFile p (.error msg) store) := by
  have hrmem : r ∈ transformToBraintrustFormat w ∧ r.experimentName = some m := by
    have : r ∈ (transformToBraintrustFormat w).filter
        (fun rv => rv.experimentName = some m) := by
      rw [hr]; exact List.mem_cons_self _ _
    have h2 := List.mem_filter.1 this
    exact ⟨h2.1, by simpa using h2.2⟩
  have hnames : m ∈ mergeNewModelNames p (.success w) :=
    (mem_mergeNewModelNames_success p w m).2 ⟨r, hrmem.1, hrmem.2, hm⟩
  refine ⟨?_, ?_, ?_⟩
  · rw [appendResultToFile, List.filter_append]
    have hcont : (mergeNewModelNames p (MergeCall.success w)).contains m = true := by
      simpa [List.contains] using List.elem_iff.2 hnames
    have hleft : (store.filter
        (keepEntry p (mergeNewModelNames p (.success w)))).filter (entryHasKey p m) = [] := by
      rw [List.filter_filter]
      rw [List.filter_eq_nil_iff]
      intro e he
      cases e with
      | rejected q err => simp [entryHasKey]
      | fulfilled q st rv =>
        by_cases hq : q = p
        · subst hq
          by_cases hrv : rv.experimentName = some m
          · simp [keepEntry, entryHasKey, hrv, hcont]
            exact fun _ => hnames
          · simp [entryHasKey, hrv]
        · simp [entryHasKey, hq]
    rw [hleft, List.nil_append, mergeNewResults_success]
    have : ∀ l : List ResultValue,
        (l.map (fun rv => Entry.fulfilled p "success" rv)).filter (entryHasKey p m) =
          (l.filter (fun rv => rv.experimentName = some m)).map
            (fun rv => Entry.fulfilled p "success" rv) := by
      intro l
      induction l with
      | nil => rfl
      | cons rv l ih =>
        simp only [List.map_cons]
        by_cases hrv : rv.experimentName = some m
        · rw [List.filter_cons_of_pos, List.filter_cons_of_pos, List.map_cons, ih]
          · simpa using hrv
          · simp [entryHasKey, hrv]
        · rw [List.filter_cons_of_neg, List.filter_cons_of_neg, ih]
          · simpa using hrv
          · simp [entryHasKey, hrv]
    rw [this, hr]
    rfl
  · intro msg
    rfl
  · intro msg q err hmem2
    rw [appendResultToFile]
    apply List.mem_append_left
    rw [List.mem_filter]
    exact ⟨hmem2, rfl⟩

/-- C2 witness: instantiates the amended theorem — after re-merging a passing
result for (e, M) over a store holding the earlier failing result for the
same key, exactly the second call's row remains for that key. -/
theorem C2_success_merge_idempotent_witness :
    (appendResultToFile "e" (MergeCall.success ⟨some [⟨"M", some ⟨true, true, true⟩⟩]⟩)
        [Entry.fulfilled "e" "success" (transformModelResult ⟨"M", some ⟨true, false, true⟩⟩)]).filter
      (entryHasKey "e" "M") =
      [Entry.fulfilled "e" "success" (transformModelResult ⟨"M", some ⟨true, true, true⟩⟩)] := by
  have h := C2_success_merge_idempotent
    [Entry.fulfilled "e" "success" (transformModelResult ⟨"M", some ⟨true, false, true⟩⟩)]
    "e" "M" ⟨some [⟨"M", some ⟨true, true, true⟩⟩]⟩
    (transformModelResult ⟨"M", some ⟨true, true, true⟩⟩)
    rfl (by decide)
  exact h.1

theorem processQueueGo_fifo (avail : Nat → ℚ) :
    ∀ (queue : List String) (i : Nat) (active admitted : List String)
      (maxP : Nat) (armed : Bool),
      ∃ k, (processQueueGo avail i queue active admitted maxP armed).admitted =
          admitted ++ queue.take k ∧
        (processQueueGo avail i queue active admitted maxP armed).queue =
          queue.drop k := by
  intro queue
  induction queue with
  | nil => intro i active admitted maxP armed; exact ⟨0, by simp [processQueueGo], by simp [processQueueGo]⟩
  | cons job rest ih =>
    intro i active admitted maxP armed
    by_cases hc : active.length < maxP
    · by_cases hm : hasEnoughMemory (avail i) minAdmitMB = true
      · obtain ⟨k, h1, h2⟩ := ih (i + 1) (active ++ [job]) (admitted ++ [job]) maxP armed
        refine ⟨k + 1, ?_, ?_⟩
        · rw [processQueueGo, if_pos hc, if_pos hm, h1]
          simp
        · rw [processQueueGo, if_pos hc, if_pos hm, h2]
          simp
      · refine ⟨0, ?_, ?_⟩ <;>
          rw [processQueueGo, if_pos hc,
            if_neg (by simpa using hm : ¬ hasEnoughMemory (avail i) minAdmitMB = true)] <;>
          simp
    · refine ⟨0, ?_, ?_⟩ <;> rw [processQueueGo, if_neg hc] <;> simp

theorem processQueueGo_active_bound (avail : Nat → ℚ) :
    ∀ (queue : List String) (i : Nat) (active admitted : List String)
      (maxP : Nat) (armed : Bool), active.length ≤ maxP →
      (processQueueGo avail i queue active admitted maxP armed).active.length ≤ maxP ∧
        (processQueueGo avail i queue active admitted maxP armed).maxProcesses = maxP := by
  intro queue
  induction queue with
  | nil => intro i active admitted maxP armed hb; exact ⟨hb, rfl⟩
  | cons job rest ih =>
    intro i active admitted maxP armed hb
    by_cases hc : active.length < maxP
    · by_cases hm : hasEnoughMemory (avail i) minAdmitMB = true
      · rw [processQueueGo, if_pos hc, if_pos hm]
        exact ih (i + 1) (active ++ [job]) (admitted ++ [job]) maxP armed (by simpa using hc)
      · rw [processQueueGo, if_pos hc,
          if_neg (by simpa using hm : ¬ hasEnoughMemory (avail i) minAdmitMB = true)]
        exact ⟨hb, rfl⟩
    · rw [processQueueGo, if_neg hc]
      exact ⟨hb, rfl⟩

theorem processQueue_fifo (avail : Nat → ℚ) (s : PoolState) :
    ∃ k, (processQueue avail s).admitted = s.admitted ++ s.queue.take k ∧
      (processQueue avail s).queue = s.queue.drop k :=
  processQueueGo_fifo avail s.queue 0 s.active s.admitted s.maxProcesses s.memCheckArmed

theorem processQueue_active_bound (avail : Nat → ℚ) (s : PoolState)
    (hb : s.active.length ≤ s.maxProcesses) :
    (processQueue avail s).active.length ≤ s.maxProcesses ∧
      (processQueue avail s).maxProcesses = s.maxProcesses :=
  processQueueGo_active_bound avail s.queue 0 s.active s.admitted s.maxProcesses
    s.memCheckArmed hb

theorem processQueue_admits_head (avail : Nat → ℚ) (s : PoolState) (q : String)
    (qs : List String) (hq : s.queue = q :: qs)
    (hc : s.active.length < s.maxProcesses)
    (hm : hasEnoughMemory (avail 0) minAdmitMB = true) :
    ∃ rest, (processQueue avail s).admitted = s.admitted ++ q :: rest := by
  rw [processQueue, hq, processQueueGo, if_pos hc, if_pos hm]
  obtain ⟨k, h1, -⟩ := processQueueGo_fifo avail qs 1 (s.active ++ [q])
    (s.admitted ++ [q]) s.maxProcesses s.memCheckArmed
  refine ⟨qs.take k, ?_⟩
  rw [h1]
  simp

/-- C4: a worker that exits with status 0 but whose captured stdout has no
line starting with `EVAL_RESULT:` — or whose sentinel payload fails to
decode — is classified as a success carrying the fallback result, and the
recorded ledger row is the default failed result whose build, lint, test and
aggregate eval scores are all 0; classification and merge are total
functions of the captured output, so the orchestrator records the row
instead of throwing. -/
theorem C4_malformed_result_soft_failure (decode : String → Option WorkerResult)
    (lines : List String) (p : String) (signal : Option String) (store : List Entry)
    (h : lines.find? (fun l => l.startsWith sentinelTag) = none ∨
      ∃ l, lines.find? (fun l => l.startsWith sentinelTag) = some l ∧
        decode (l.drop sentinelTag.length) = none) :
    classifyExit decode (some 0) signal lines =
      .success { modelResults := none } ∧
      appendResultToFile p (classifyExit decode (some 0) signal lines) store =
        store.filter (keepEntry p ["Unknown Model"]) ++
          [Entry.fulfilled p "success" (createDefaultBraintrustResult "Unknown Model")] ∧
      (createDefaultBraintrustResult "Unknown Model").scores = some defaultFailedScores ∧
      defaultFailedScores.build_score.score = 0 ∧
      defaultFailedScores.lint_score.score = 0 ∧
      defaultFailedScores.test_score.score = 0 ∧
      defaultFailedScores.eval_score.score = 0 := by
  have hparse : parseWorkerOutput decode lines = { modelResults := none } := by
    rcases h with h | ⟨l, hl, hd⟩
    · rw [parseWorkerOutput, h]
    · simp only [parseWorkerOutput, hl, hd]
  have hclass : classifyExit decode (some 0) signal lines =
      .success { modelResults := none } := by
    rw [classifyExit, if_pos rfl, hparse]
  refine ⟨hclass, ?_, rfl, rfl, rfl, rfl, rfl⟩
  rw [hclass]
  rfl

/-- C4 witness: a worker exiting 0 with empty captured stdout — hence no
sentinel line — is recorded as the all-zero default failed result. -/
theorem C4_malformed_result_soft_failure_witness :
    appendResultToFile "001"
        (classifyExit (fun _ => none) (some 0) none []) [] =
      [Entry.fulfilled "001" "success" (createDefaultBraintrustResult "Unknown Model")] ∧
      defaultFailedScores.eval_score.score = 0 := by
  have h := C4_malformed_result_soft_failure (fun _ => none) []
    "001" none [] (Or.inl rfl)
  exact ⟨by simpa using h.2.1, h.2.2.2.2.2.2⟩

/-- C9: a worker exiting with a non-zero code or killed by a signal is
classified as an error merge whose diagnostic text is the exit reason
(`Process killed by signal <signal>` when a signal is present, otherwise
`Process exited with code <code>`), independently of whatever stdout the
child produced; the recorded row is the rejected error record, and the exit
handler then re-invokes the admission loop, which admits the backlog head
when a slot and memory are available. -/
theorem C9_abnormal_exit_recorded (avail : Nat → ℚ)
    (decode : String → Option WorkerResult) (p : String) (code : Option Int)
    (signal : Option String) (lines lines2 : List String) (store : List Entry)
    (s : PoolState) (h : code ≠ some 0) :
    classifyExit decode code signal lines = .error (exitErrorMessage code signal) ∧
      classifyExit decode code signal lines = classifyExit decode code signal lines2 ∧
      (∀ sig, signal = some sig →
        exitErrorMessage code signal = "Process killed by signal " ++ sig) ∧
      (∀ n : Int, signal = none → code = some n →
        exitErrorMessage code signal = "Process exited with code " ++ toString n) ∧
      (handleExit avail decode p code signal lines store s).1 =
        store.filter (keepEntry p []) ++
          [Entry.rejected p (exitErrorMessage code signal)] ∧
      (handleExit avail decode p code signal lines store s).2 =
        processQueue avail { s with active := s.active.erase p } ∧
      (∀ q qs, s.queue = q :: qs → (s.active.erase p).length < s.maxProcesses →
        hasEnoughMemory (avail 0) minAdmitMB = true →
        ∃ rest, (handleExit avail decode p code signal lines store s).2.admitted =
          s.admitted ++ q :: rest) := by
  have hclass : classifyExit decode code signal lines =
      .error (exitErrorMessage code signal) := by
    rw [classifyExit, if_neg h]
  have hclass2 : classifyExit decode code signal lines2 =
      .error (exitErrorMessage code signal) := by
    rw [classifyExit, if_neg h]
  refine ⟨hclass, by rw [hclass, hclass2], ?_, ?_, ?_, rfl, ?_⟩
  · intro sig hsig
    rw [hsig]
    rfl
  · intro n hsig hcode
    rw [hsig, hcode]
    rfl
  · show appendResultToFile p (classifyExit decode code signal lines) store = _
    rw [hclass]
    rfl
  · intro q qs hq hcap hmem
    exact processQueue_admits_head avail { s with active := s.active.erase p } q qs hq hcap hmem

/-- C9 witness: a worker killed by SIGKILL is recorded as a rejected row with
the termination reason, and the next backlog item is then admitted. -/
theorem C9_abnormal_exit_recorded_witness :
    (handleExit (fun _ => (1000 : ℚ)) (fun _ => none) "A" none (some "SIGKILL")
        ["irrelevant"] [] { queue := ["B"], active := ["A"], maxProcesses := 1
                          , memCheckArmed := false, admitted := ["A"] }).1 =
      [Entry.rejected "A" "Process killed by signal SIGKILL"] ∧
      ∃ rest, (handleExit (fun _ => (1000 : ℚ)) (fun _ => none) "A" none (some "SIGKILL")
        ["irrelevant"] [] { queue := ["B"], active := ["A"], maxProcesses := 1
                          , memCheckArmed := false, admitted := ["A"] }).2.admitted =
        ["A"] ++ "B" :: rest := by
  have h := C9_abnormal_exit_recorded (fun _ => (1000 : ℚ)) (fun _ => none) "A" none
    (some "SIGKILL") ["irrelevant"] [] []
    { queue := ["B"], active := ["A"], maxProcesses := 1
    , memCheckArmed := false, admitted := ["A"] } (by decide)
  refine ⟨?_, h.2.2.2.2.2.2 "B" [] rfl (by decide) (by decide)⟩
  have h5 := h.2.2.2.2.1
  have hmsg := h.2.2.1 "SIGKILL" rfl
  rw [hmsg] at h5
  simpa using h5

/-- C6: the admission loop never lets the active set exceed the configured
worker budget, admits jobs from the backlog head in submission order (the
admitted jobs always form a prefix of the pending queue appended to the
admission history, with the queue shrinking by exactly that prefix), and —
whenever a slot and memory are available — the next job admitted is the
backlog head.  With backlog [A, B, C] and budget 2, exactly A and B are
active after the first admission pass, C is admitted only after A exits, and
after all three workers exit the result store holds exactly 3 entries. -/
theorem C6_bounded_fifo_admission (avail : Nat → ℚ) (s : PoolState)
    (hb : s.active.length ≤ s.maxProcesses) :
    ((processQueue avail s).active.length ≤ s.maxProcesses ∧
      (processQueue avail s).maxProcesses = s.maxProcesses) ∧
      (∃ k, (processQueue avail s).admitted = s.admitted ++ s.queue.take k ∧
        (processQueue avail s).queue = s.queue.drop k) ∧
      (∀ q qs, s.queue = q :: qs → s.active.length < s.maxProcesses →
        hasEnoughMemory (avail 0) minAdmitMB = true →
        ∃ rest, (processQueue avail s).admitted = s.admitted ++ q :: rest) ∧
      (let av : Nat → ℚ := fun _ => 1000
       let dec : String → Option WorkerResult := fun _ => none
       let s1 := processQueue av
         { queue := ["A", "B", "C"], active := [], maxProcesses := 2
         , memCheckArmed := false, admitted := [] }
       let e1 := handleExit av dec "A" (some 0) none [] [] s1
       let e2 := handleExit av dec "B" (some 0) none [] e1.1 e1.2
       let e3 := handleExit av dec "C" (some 0) none [] e2.1 e2.2
       s1.active = ["A", "B"] ∧ s1.queue = ["C"] ∧ s1.admitted = ["A", "B"] ∧
         e1.2.active = ["B", "C"] ∧ e1.2.admitted = ["A", "B", "C"] ∧
         e3.1.length = 3) := by
  refine ⟨processQueue_active_bound avail s hb, processQueue_fifo avail s, ?_, ?_⟩
  · intro q qs hq hc hm
    exact processQueue_admits_head avail s q qs hq hc hm
  · decide

/-- C6 witness: instantiates the theorem on a one-slot pool with backlog
[X]: the budget bound holds and X is admitted at the queue head. -/
theorem C6_bounded_fifo_admission_witness :
    (processQueue (fun _ => (1000 : ℚ))
        { queue := ["X"], active := [], maxProcesses := 1
        , memCheckArmed := false, admitted := [] }).active.length ≤ 1 ∧
      ∃ rest, (processQueue (fun _ => (1000 : ℚ))
          { queue := ["X"], active := [], maxProcesses := 1
          , memCheckArmed := false, admitted := [] }).admitted = [] ++ "X" :: rest := by
  have h := C6_bounded_fifo_admission (fun _ => (1000 : ℚ))
    { queue := ["X"], active := [], maxProcesses := 1
    , memCheckArmed := false, admitted := [] } (by decide)
  exact ⟨h.1.1, h.2.2.1 "X" [] rfl (by decide) (by decide)⟩

/-- C8: when the memory check fails (reported free megabytes below the
100 MB floor — the two are equivalent), the admission loop spawns nothing
even though the backlog is non-empty and a worker slot is free: the state is
unchanged except that the 2-second polling interval is armed.  A polling
tick that reports sufficient memory clears the interval and re-invokes the
admission loop — which then admits the backlog head — while a failing tick
leaves the state untouched. -/
theorem C8_memory_gated_admission (avail : Nat → ℚ) (s : PoolState) (q : String)
    (qs : List String) (hq : s.queue = q :: qs)
    (hcap : s.active.length < s.maxProcesses) :
    (hasEnoughMemory (avail 0) minAdmitMB = false →
      processQueue avail s = { s with memCheckArmed := true }) ∧
      (∀ a : ℚ, hasEnoughMemory a minAdmitMB = false ↔ a < 100) ∧
      (memoryPollTick avail true s =
        processQueue avail { s with memCheckArmed := false }) ∧
      (memoryPollTick avail false s = s) ∧
      (hasEnoughMemory (avail 0) minAdmitMB = true →
        ∃ rest, (memoryPollTick avail true s).admitted = s.admitted ++ q :: rest) := by
  obtain ⟨Q, act, mx, ar, adm⟩ := s
  simp only [PoolState.mk.injEq] at hq ⊢
  subst hq
  refine ⟨?_, ?_, rfl, rfl, ?_⟩
  · intro hmem
    rw [processQueue, processQueueGo]
    simp only [if_pos hcap, hmem]
    rfl
  · intro a
    simp [hasEnoughMemory, minAdmitMB, not_le]
  · intro hmem
    exact processQueue_admits_head avail
      { queue := q :: qs, active := act, maxProcesses := mx
      , memCheckArmed := false, admitted := adm } q qs rfl hcap hmem

/-- C8 witness: with 50 MB reported free, no worker is spawned and the
polling interval is armed; a later passing poll admits the backlog head. -/
theorem C8_memory_gated_admission_witness :
    processQueue (fun _ => (50 : ℚ))
        { queue := ["X"], active := [], maxProcesses := 1
        , memCheckArmed := false, admitted := [] } =
      { queue := ["X"], active := [], maxProcesses := 1
      , memCheckArmed := true, admitted := [] } ∧
      ∃ rest, (memoryPollTick (fun _ => (1000 : ℚ)) true
          { queue := ["X"], active := [], maxProcesses := 1
          , memCheckArmed := true, admitted := [] }).admitted = [] ++ "X" :: rest := by
  have h1 := C8_memory_gated_admission (fun _ => (50 : ℚ))
    { queue := ["X"], active := [], maxProcesses := 1
    , memCheckArmed := false, admitted := [] } "X" [] rfl (by decide)
  have h2 := C8_memory_gated_admission (fun _ => (1000 : ℚ))
    { queue := ["X"], active := [], maxProcesses := 1
    , memCheckArmed := true, admitted := [] } "X" [] rfl (by decide)
  exact ⟨h1.1 (by decide), h2.2.2.2.2 (by decide)⟩

theorem le_foldr_max : ∀ (l : List Nat) (a : Nat), a ∈ l → a ≤ l.foldr max 0 := by
  intro l
  induction l with
  | nil => intro a ha; cases ha
  | cons b l ih =>
    intro a ha
    rcases List.mem_cons.1 ha with ha | ha
    · subst ha
      exact le_max_left _ _
    · exact le_trans (ih a ha) (le_max_right _ _)

/-- C7 counterexample: the orchestrator's cancellation path — the SIGINT /
SIGTERM handlers of `src/cli.ts` lines 105-115 — runs with two workers
active yet delivers no termination signal to either worker and never reaches
`ProcessPool.cleanup`; the claim that shutdown/cancellation SIGTERMs every
active worker is false on this input. -/
theorem C7_counterexample :
    (sigintHandlerEffect ["worker1", "worker2"]).workerSignals = [] ∧
      (sigintHandlerEffect ["worker1", "worker2"]).poolCleanupInvoked = false ∧
      (sigintHandlerEffect ["worker1", "worker2"]).progressTrackerStopped = true := by
  decide

/-- C7 (amended): `ProcessPool.cleanup` — which runs when `runEvals` finishes
draining the backlog, not on SIGINT/SIGTERM cancellation — sends SIGTERM to
every active worker, force-kills (SIGKILL) every worker that has not exited
within the 5-second grace period, settles each worker within that grace
period, returns only once every worker has settled, and clears the active
set; the cancellation handlers themselves stop only the progress tracker
and signal no worker. -/
theorem C7_pool_cleanup_reaps_all (ws : List ActiveWorker) (w : ActiveWorker)
    (hw : w ∈ ws) :
    w.name ∈ (poolCleanup ws).sigtermed ∧
      (gracePeriodMs < w.exitAfterTermMs → w.name ∈ (poolCleanup ws).sigkilled) ∧
      workerSettleTime w ≤ (poolCleanup ws).returnAtMs ∧
      workerSettleTime w ≤ gracePeriodMs ∧
      (poolCleanup ws).activeAfter = [] ∧
      (∀ active, (sigintHandlerEffect active).workerSignals = []) := by
  refine ⟨List.mem_map_of_mem _ hw, ?_, ?_, Nat.min_le_right _ _, rfl, fun active => rfl⟩
  · intro h
    refine List.mem_map_of_mem _ ?_
    rw [List.mem_filter]
    exact ⟨hw, by simpa [workerForceKilled] using h⟩
  · exact le_foldr_max _ _ (List.mem_map_of_mem _ hw)

/-- C7 witness: in a cleanup over two workers, one hung past the grace
period, the hung worker got SIGTERM, then SIGKILL, and cleanup returns no
earlier than its settle time with the active set cleared. -/
theorem C7_pool_cleanup_reaps_all_witness :
    "w2" ∈ (poolCleanup [⟨"w1", 1000⟩, ⟨"w2", 99999⟩]).sigtermed ∧
      "w2" ∈ (poolCleanup [⟨"w1", 1000⟩, ⟨"w2", 99999⟩]).sigkilled ∧
      workerSettleTime ⟨"w2", 99999⟩ ≤ (poolCleanup [⟨"w1", 1000⟩, ⟨"w2", 99999⟩]).returnAtMs ∧
      (poolCleanup [⟨"w1", 1000⟩, ⟨"w2", 99999⟩]).activeAfter = [] := by
  have h := C7_pool_cleanup_reaps_all [⟨"w1", 1000⟩, ⟨"w2", 99999⟩] ⟨"w2", 99999⟩
    (by decide)
  exact ⟨h.1, h.2.1 (by decide), h.2.2.1, h.2.2.2.2.1⟩

theorem modelFolderName_multi (models : List Model) (hmulti : 1 < models.length) :
    modelFolderName models = "all-models" := by
  rw [modelFolderName.eq_def, if_pos hmulti]
  decide

/-- C3: in a multi-model run over a store where some variants of a task have
recorded results and others do not, the work actually spawned — the parent
admits each not-fully-completed eval and the spec-modelled child runs its
missing models — covers exactly the missing (evalPath, model) pairs: no
spawned pair has a recorded result, every missing pair of a listed eval is
spawned, and an eval whose models are all recorded is not admitted at all. -/
theorem C3_per_variant_resume (models : List Model) (store : List Entry)
    (evalPaths : List String) (hmulti : 1 < models.length) :
    (∀ p m, (p, m) ∈ spawnedVariantPairs models store evalPaths →
      completionKey p m ∉ loadCompletedEvals models store) ∧
      (∀ p, p ∈ evalPaths → ∀ mo, mo ∈ models →
        completionKey p mo.name ∉ loadCompletedEvals models store →
        (p, mo.name) ∈ spawnedVariantPairs models store evalPaths) ∧
      (∀ p, p ∈ evalPaths →
        (∀ mo, mo ∈ models → completionKey p mo.name ∈ loadCompletedEvals models store) →
        p ∉ evalsToRun models store evalPaths) := by
  have hfolder := modelFolderName_multi models hmulti
  refine ⟨?_, ?_, ?_⟩
  · intro p m hmem
    rw [spawnedVariantPairs] at hmem
    rw [mem_foldr_append] at hmem
    obtain ⟨p2, -, hpair⟩ := hmem
    rw [List.mem_map] at hpair
    obtain ⟨mo, hmo, heq⟩ := hpair
    obtain ⟨heq1, heq2⟩ := Prod.mk.injEq .. ▸ heq
    subst heq1
    subst heq2
    rw [childModelsRun, getModelsToRun, List.mem_filter] at hmo
    intro hmem2
    have : isEvalCompleted (loadCompletedEvals models store) p2 (some mo.name) = true := by
      simp only [isEvalCompleted, List.contains]
      exact List.elem_iff.2 hmem2
    simp [this] at hmo
  · intro p hp mo hmo hnotin
    have hnotc : isEvalCompleted (loadCompletedEvals models store) p (some mo.name) = false := by
      simp only [isEvalCompleted]
      rw [Bool.eq_false_iff]
      intro hc
      exact hnotin (List.elem_iff.1 (by simpa [List.contains] using hc))
    have hrun : p ∈ evalsToRun models store evalPaths := by
      simp only [evalsToRun, hfolder, eq_self_iff_true, if_true, List.mem_filter]
      refine ⟨hp, ?_⟩
      simp only [decide_eq_true_eq]
      intro hall
      rw [List.all_eq_true] at hall
      have := hall mo hmo
      rw [hnotc] at this
      cases this
    rw [spawnedVariantPairs, mem_foldr_append]
    refine ⟨p, hrun, ?_⟩
    rw [List.mem_map]
    refine ⟨mo, ?_, rfl⟩
    rw [childModelsRun, getModelsToRun, List.mem_filter]
    exact ⟨hmo, by simp [hnotc]⟩
  · intro p hp hall
    simp only [evalsToRun, hfolder, eq_self_iff_true, if_true, List.mem_filter]
    rintro ⟨-, hpred⟩
    simp only [decide_eq_true_eq] at hpred
    apply hpred
    rw [List.all_eq_true]
    intro mo hmo
    have := hall mo hmo
    simp only [isEvalCompleted, List.contains]
    exact List.elem_iff.2 this

/-- C3 witness: with models M1 and M2 and a store recording only (001, M1)
(as a failed outcome), the resumed multi-model run spawns exactly the
missing pair (001, M2) and never the recorded pair (001, M1). -/
theorem C3_per_variant_resume_witness :
    ("001", "M2") ∈ spawnedVariantPairs [{ name := "M1" }, { name := "M2" }]
        [Entry.fulfilled "001" "success"
          { experimentName := some "M1", scores := some defaultFailedScores
          , modelResults := none, evaluationResults := false }] ["001"] ∧
      ("001", "M1") ∉ spawnedVariantPairs [{ name := "M1" }, { name := "M2" }]
        [Entry.fulfilled "001" "success"
          { experimentName := some "M1", scores := some defaultFailedScores
          , modelResults := none, evaluationResults := false }] ["001"] := by
  have h := C3_per_variant_resume [{ name := "M1" }, { name := "M2" }]
    [Entry.fulfilled "001" "success"
      { experimentName := some "M1", scores := some defaultFailedScores
      , modelResults := none, evaluationResults := false }] ["001"] (by decide)
  refine ⟨h.2.1 "001" (by decide) { name := "M2" } (by decide) (by decide), ?_⟩
  intro hmem
  have := h.1 "001" "M1" hmem
  exact this (by decide)

theorem transformModelResult_experimentName (m : String) (er : EvaluationResults) :
    (transformModelResult ⟨m, some er⟩).experimentName = some m := rfl

theorem keepEntry_of_keyed (p m : String) (e : Entry)
    (h : ∃ k, entryKeyOf e = some k ∧ k ≠ (p, m)) :
    keepEntry p [m] e = true := by
  obtain ⟨k, hk, hne⟩ := h
  cases e with
  | rejected q err => rfl
  | fulfilled q st rv =>
    cases hq : rv.experimentName with
    | none => simp [entryKeyOf, hq] at hk
    | some m2 =>
      simp only [entryKeyOf, hq] at hk
      by_cases hm2 : m2 = ""
      · rw [if_pos hm2] at hk; cases hk
      · rw [if_neg hm2] at hk
        injection hk with hk
        subst hk
        by_cases hqp : q = p
        · subst hqp
          have hm2m : m2 ≠ m := by
            intro hc
            exact hne (by rw [hc])
          simp [keepEntry, hq, hm2, hm2m]
        · simp [keepEntry, hqp]

theorem singleMerge_unfold (p m : String) (er : EvaluationResults) (st : List Entry)
    (hm : m ≠ "") :
    singleModelMerge (p, m, er) st =
      st.filter (keepEntry p [m]) ++
        [Entry.fulfilled p "success" (transformModelResult ⟨m, some er⟩)] := by
  rw [singleModelMerge, appendResultToFile]
  have hnew : mergeNewResults p
      (.success { modelResults := some [{ model := m, result := some er }] }) =
      [Entry.fulfilled p "success" (transformModelResult ⟨m, some er⟩)] := rfl
  have hnames : mergeNewModelNames p
      (.success { modelResults := some [{ model := m, result := some er }] }) = [m] := by
    rw [mergeNewModelNames, hnew]
    simp [namesOfEntries, transformModelResult_experimentName, hm]
  rw [hnew, hnames]

theorem entryKeyOf_transformed (p m : String) (er : EvaluationResults) (hm : m ≠ "") :
    entryKeyOf (Entry.fulfilled p "success" (transformModelResult ⟨m, some er⟩)) =
      some (p, m) := by
  simp [entryKeyOf, transformModelResult_experimentName, hm]

theorem singleMerge_append (p m : String) (er : EvaluationResults) (st : List Entry)
    (hm : m ≠ "")
    (hst : ∀ e ∈ st, ∃ k, entryKeyOf e = some k ∧ k ≠ (p, m)) :
    singleModelMerge (p, m, er) st =
      st ++ [Entry.fulfilled p "success" (transformModelResult ⟨m, some er⟩)] := by
  rw [singleMerge_unfold p m er st hm]
  congr 1
  rw [List.filter_eq_self]
  intro e he
  exact keepEntry_of_keyed p m e (hst e he)

theorem mergeFold_length :
    ∀ (calls : List (String × String × EvaluationResults)) (st : List Entry),
      (calls.map (fun c => (c.1, c.2.1))).Nodup →
      (∀ c ∈ calls, c.2.1 ≠ "") →
      (∀ e ∈ st, ∃ k, entryKeyOf e = some k ∧ k ∉ calls.map (fun c => (c.1, c.2.1))) →
      (calls.foldl (fun acc c => singleModelMerge c acc) st).length =
        st.length + calls.length := by
  intro calls
  induction calls with
  | nil => intro st _ _ _; simp
  | cons c cs ih =>
    intro st hnodup htruthy hst
    obtain ⟨p, m, er⟩ := c
    have hm : m ≠ "" := htruthy (p, m, er) (List.mem_cons_self _ _)
    have hstep : singleModelMerge (p, m, er) st =
        st ++ [Entry.fulfilled p "success" (transformModelResult ⟨m, some er⟩)] := by
      refine singleMerge_append p m er st hm ?_
      intro e he
      obtain ⟨k, hk, hnotin⟩ := hst e he
      refine ⟨k, hk, ?_⟩
      intro hc
      subst hc
      exact hnotin (by simp)
    rw [List.foldl_cons, hstep]
    have hnc : ((p, m) : String × String) ∉ cs.map (fun c => (c.1, c.2.1)) ∧
        (cs.map (fun c => (c.1, c.2.1))).Nodup := by
      rw [List.map_cons, List.nodup_cons] at hnodup
      exact hnodup
    have hnodup2 := hnc.2
    have hhead := hnc.1
    rw [ih (st ++ [Entry.fulfilled p "success" (transformModelResult ⟨m, some er⟩)])
      hnodup2 (fun c hc => htruthy c (List.mem_cons_of_mem _ hc)) ?_]
    · simp only [List.length_append, List.length_cons, List.length_nil]
      omega
    · intro e he
      rcases List.mem_append.1 he with he | he
      · obtain ⟨k, hk, hnotin⟩ := hst e he
        refine ⟨k, hk, ?_⟩
        intro hc
        exact hnotin (List.mem_map.2 (by
          obtain ⟨c2, hc2, hc2e⟩ := List.mem_map.1 hc
          exact ⟨c2, List.mem_cons_of_mem _ hc2, hc2e⟩))
      · rcases List.mem_singleton.1 he with rfl
        exact ⟨(p, m), entryKeyOf_transformed p m er hm, hhead⟩

/-- C5 counterexample: the loader supports legacy fulfilled rows carrying
`modelResults` and no `experimentName`; such a row for eval path e covers the
key (e, M2), yet a merge for the different key (e, M1) deletes it — the
recorded coverage of (e, M2) is lost, refuting the frame property for
every store contents. -/
theorem C5_counterexample :
    completionKey "e" "M2" ∈ loadCompletedEvals [{ name := "M1" }, { name := "M2" }]
        [Entry.fulfilled "e" "success"
          { experimentName := none, scores := none, modelResults := some ["M2"]
          , evaluationResults := false }] ∧
      Entry.fulfilled "e" "success"
          { experimentName := none, scores := none, modelResults := some ["M2"]
          , evaluationResults := false } ∉
        appendResultToFile "e" (.success ⟨some [⟨"M1", none⟩]⟩)
          [Entry.fulfilled "e" "success"
            { experimentName := none, scores := none, modelResults := some ["M2"]
            , evaluationResults := false }] ∧
      completionKey "e" "M2" ∉ loadCompletedEvals [{ name := "M1" }, { name := "M2" }]
        (appendResultToFile "e" (.success ⟨some [⟨"M1", none⟩]⟩)
          [Entry.fulfilled "e" "success"
            { experimentName := none, scores := none, modelResults := some ["M2"]
            , evaluationResults := false }]) := by
  decide

/-- C5 (amended): a merge preserves every stored row that is rejected or
carries a replace key (a truthy `experimentName`) differing from the merged
key — the entries deleted beyond the merged key are exactly the fulfilled
rows for the same eval path without a truthy `experimentName` (legacy
format, as in the counterexample); consequently N serialized single-model
success merges with N distinct keys starting from the empty store leave
exactly N entries. -/
theorem C5_keyed_frame_and_count :
    (∀ (store : List Entry) (p : String) (c : MergeCall) (e : Entry), e ∈ store →
      (∀ q st rv, e = Entry.fulfilled q st rv →
        q ≠ p ∨ ∃ m, rv.experimentName = some m ∧ m ≠ "" ∧
          ¬ (mergeNewModelNames p c).contains m = true) →
      e ∈ appendResultToFile p c store) ∧
      (∀ calls : List (String × String × EvaluationResults),
        (calls.map (fun c => (c.1, c.2.1))).Nodup →
        (∀ c ∈ calls, c.2.1 ≠ "") →
        (calls.foldl (fun acc c => singleModelMerge c acc) []).length = calls.length) := by
  constructor
  · intro store p c e he hcond
    rw [appendResultToFile]
    apply List.mem_append_left
    rw [List.mem_filter]
    refine ⟨he, ?_⟩
    cases e with
    | rejected q err => rfl
    | fulfilled q st rv =>
      rcases hcond q st rv rfl with hq | ⟨m, hm1, hm2, hm3⟩
      · rw [keepEntry, if_neg hq]
      · rw [keepEntry]
        by_cases hqp : q = p
        · subst hqp
          rw [if_pos rfl, hm1]
          simp only [decide_eq_true_eq]
          exact ⟨hm2, hm3⟩
        · rw [if_neg hqp]
  · intro calls hnodup htruthy
    have := mergeFold_length calls [] hnodup htruthy (fun e he => by cases he)
    simpa using this

/-- C5 witness: an error merge for eval path e preserves both a rejected row
for another path and a keyed fulfilled row for a third path, and two
serialized merges with the distinct keys (e1, M1) and (e2, M2) starting from
the empty store leave exactly 2 entries. -/
theorem C5_keyed_frame_and_count_witness :
    Entry.rejected "x" "boom" ∈
        appendResultToFile "e" (.error "err")
          [Entry.rejected "x" "boom",
           Entry.fulfilled "other" "success" (createDefaultBraintrustResult "M")] ∧
      ([("e1", "M1", EvaluationResults.mk false false false),
        ("e2", "M2", EvaluationResults.mk true true true)].foldl
          (fun acc c => singleModelMerge c acc) []).length = 2 := by
  have h1 := C5_keyed_frame_and_count.1
    [Entry.rejected "x" "boom",
     Entry.fulfilled "other" "success" (createDefaultBraintrustResult "M")]
    "e" (.error "err") (Entry.rejected "x" "boom") (List.mem_cons_self _ _)
    (fun q st rv h => by cases h)
  have h2 := C5_keyed_frame_and_count.2
    [("e1", "M1", EvaluationResults.mk false false false),
     ("e2", "M2", EvaluationResults.mk true true true)] (by decide) (by decide)
  exact ⟨h1, h2⟩

end NextEvals
